import Mathlib

/-!
Shallow embedding of the `circus` ring-buffer crate
(`src/ringbuffer.rs` and `src/ringbufferu.rs`).

Both Rust types store `start`, `size` and a storage vector of `capacity`
slots.  Machine integers (`usize`) are modelled as `Nat`; the only place
64-bit width matters is the zero-sized-element mode, where `Vec` reports
`usize::MAX` as its capacity, so `usizeMax = 2^64 - 1` appears explicitly.
A Rust panic (index out of bounds, `Option::unwrap` on `None`, remainder by
zero, `Vec` capacity overflow) and undefined behaviour (`assume_init` of an
uninitialized slot) are both modelled by an operation returning `none`:
the run of a sequence of operations aborts there.
-/

namespace Circus

/-- Model of `usize::MAX` on a 64-bit target. -/
def usizeMax : Nat := 2 ^ 64 - 1

/-- A client operation on a constructed buffer. -/
inductive Op (T : Type) where
  | push (x : T)
  | pop
deriving DecidableEq

/-- `RingBuffer<T>` of `src/ringbuffer.rs` instantiated at a non-zero-sized
`T`: the `RawRingBuffer::Sized` branch, holding a `Vec<Option<T>>`.
`with_capacity(cap)` fills the vector with exactly `cap` slots and no
operation ever changes its length, so `Vec::capacity()` coincides with the
length of `buffer`. -/
structure RingBuffer (T : Type) where
  start : Nat
  size : Nat
  buffer : List (Option T)
deriving DecidableEq

namespace RingBuffer

variable {T : Type}

/-- `RingBuffer::with_capacity(cap)`, sized branch: `cap` slots, all `None`. -/
def withCapacity (cap : Nat) : RingBuffer T :=
  { start := 0, size := 0, buffer := List.replicate cap none }

/-- `RingBuffer::capacity()`: the storage capacity (= number of slots). -/
def capacity (s : RingBuffer T) : Nat := s.buffer.length

/-- `RingBuffer::push`, sized branch.  When `capacity = 0` the index
computation `(start + size) % capacity` is a remainder by zero, which
panics (`none`).  Otherwise `idx < capacity`, the slot write is in range,
and — as in the source — the full case advances `start` by one WITHOUT
reducing it modulo `capacity`. -/
def push (s : RingBuffer T) (x : T) : Option (RingBuffer T) :=
  if s.capacity = 0 then none
  else
    let idx := (s.start + s.size) % s.capacity
    let buf := s.buffer.set idx (some x)
    if s.size = s.capacity then
      some { start := s.start + 1, size := s.size, buffer := buf }
    else
      some { start := s.start, size := s.size + 1, buffer := buf }

/-- `RingBuffer::pop`, sized branch.  `vo.get_mut(idx).unwrap().take()`
panics (`none`) when `idx = start` is outside the vector; otherwise it
takes the stored `Option` out of the slot, leaving `None` behind. -/
def pop (s : RingBuffer T) : Option (Option T × RingBuffer T) :=
  if s.size = 0 then some (none, s)
  else if s.capacity = 0 then none
  else
    match s.buffer[s.start]? with
    | none => none
    | some slot =>
        some (slot,
          { start := (s.start + 1) % s.capacity, size := s.size - 1,
            buffer := s.buffer.set s.start none })

/-- Run a sequence of operations, collecting the value returned by each
`pop`; `none` when some operation panics along the way. -/
def run : RingBuffer T → List (Op T) → Option (List (Option T) × RingBuffer T)
  | s, [] => some ([], s)
  | s, Op.push x :: ops => (s.push x).bind fun s' => run s' ops
  | s, Op.pop :: ops =>
      s.pop.bind fun p => (run p.2 ops).map fun q => (p.1 :: q.1, q.2)

end RingBuffer

/-- `RBIter::next` of `src/ringbuffer.rs` (sized branch): the iterator is a
newtype around the buffer, and `next` repeats the body of `pop` verbatim. -/
def RBIter.next {T : Type} (s : RingBuffer T) : Option (Option T × RingBuffer T) :=
  if s.size = 0 then some (none, s)
  else if s.capacity = 0 then none
  else
    match s.buffer[s.start]? with
    | none => none
    | some slot =>
        some (slot,
          { start := (s.start + 1) % s.capacity, size := s.size - 1,
            buffer := s.buffer.set s.start none })

/-- A `Vec::from_iter`-style drain of `RBIter`: keep calling `next`,
appending each yielded value, until `next` returns `None`.  `fuel` bounds
the number of calls so the definition is structural; running out of fuel
before `next` has returned `None` gives `none`, and any `fuel > size`
is enough because each yielding `next` decreases `size` by one. -/
def RBIter.collect {T : Type} : Nat → RingBuffer T → Option (List T × RingBuffer T)
  | 0, _ => none
  | fuel + 1, s =>
    match RBIter.next s with
    | none => none
    | some (none, s') => some ([], s')
    | some (some v, s') => (RBIter.collect fuel s').map fun p => (v :: p.1, p.2)

/-- `RingBufferU<T>` of `src/ringbufferu.rs` at a non-zero-sized `T`:
storage is `Vec<MaybeUninit<T>>` with exactly `cap` slots.  A slot is
modelled as `Option T`, where `none` stands for uninitialized (or
moved-out) contents; reading such a slot with `assume_init` is undefined
behaviour and aborts the run. -/
structure RingBufferU (T : Type) where
  start : Nat
  size : Nat
  buffer : List (Option T)
deriving DecidableEq

namespace RingBufferU

variable {T : Type}

/-- `RingBufferU::with_capacity(cap)`: `cap` uninitialized slots. -/
def withCapacity (cap : Nat) : RingBufferU T :=
  { start := 0, size := 0, buffer := List.replicate cap none }

/-- `RingBufferU::capacity()`. -/
def capacity (s : RingBufferU T) : Nat := s.buffer.length

/-- `RingBufferU::push`.  `capacity = 0` panics in `(start + size) % capacity`.
In the full case the source drops the old occupant
(`replace(get_mut(idx).unwrap(), uninit()).assume_init()`) — undefined
behaviour if that slot is uninitialized — advances `start` by one (again
with NO modulo), and then stores the new element at `idx`. -/
def push (s : RingBufferU T) (x : T) : Option (RingBufferU T) :=
  if s.capacity = 0 then none
  else
    let idx := (s.start + s.size) % s.capacity
    if s.size = s.capacity then
      match s.buffer[idx]? with
      | none => none
      | some none => none
      | some (some _) =>
          some { start := s.start + 1, size := s.size,
                 buffer := s.buffer.set idx (some x) }
    else
      some { start := s.start, size := s.size + 1,
             buffer := s.buffer.set idx (some x) }

/-- `RingBufferU::pop`.  Panics when `get_mut(start)` is out of range;
undefined behaviour when the slot at `start` is uninitialized; otherwise
moves the value out, leaving the slot uninitialized. -/
def pop (s : RingBufferU T) : Option (Option T × RingBufferU T) :=
  if s.size = 0 then some (none, s)
  else if s.capacity = 0 then none
  else
    match s.buffer[s.start]? with
    | none => none
    | some none => none
    | some (some v) =>
        some (some v,
          { start := (s.start + 1) % s.capacity, size := s.size - 1,
            buffer := s.buffer.set s.start none })

/-- Run a sequence of operations on a `RingBufferU`. -/
def run : RingBufferU T → List (Op T) → Option (List (Option T) × RingBufferU T)
  | s, [] => some ([], s)
  | s, Op.push x :: ops => (s.push x).bind fun s' => run s' ops
  | s, Op.pop :: ops =>
      s.pop.bind fun p => (run p.2 ops).map fun q => (p.1 :: q.1, q.2)

/-- `impl Drop for RingBufferU`: `while size > 0 { pop() }`.  `fuel` bounds
the number of iterations; any `fuel ≥ size` is enough because each
successful pop with `size > 0` decreases `size` by one. -/
def dropLoop : Nat → RingBufferU T → Option (RingBufferU T)
  | 0, s => if s.size = 0 then some s else none
  | fuel + 1, s =>
      if s.size = 0 then some s
      else s.pop.bind fun p => dropLoop fuel p.2

end RingBufferU

/-- `RBUIter::next` of `src/ringbufferu.rs`: again a newtype around the
buffer whose `next` repeats the body of `pop` verbatim. -/
def RBUIter.next {T : Type} (s : RingBufferU T) : Option (Option T × RingBufferU T) :=
  if s.size = 0 then some (none, s)
  else if s.capacity = 0 then none
  else
    match s.buffer[s.start]? with
    | none => none
    | some none => none
    | some (some v) =>
        some (some v,
          { start := (s.start + 1) % s.capacity, size := s.size - 1,
            buffer := s.buffer.set s.start none })

/-- Drain of `RBUIter`, with fuel as in `RBIter.collect`. -/
def RBUIter.collect {T : Type} : Nat → RingBufferU T → Option (List T × RingBufferU T)
  | 0, _ => none
  | fuel + 1, s =>
    match RBUIter.next s with
    | none => none
    | some (none, s') => some ([], s')
    | some (some v, s') => (RBUIter.collect fuel s').map fun p => (v :: p.1, p.2)

/-- A client operation on a buffer of a zero-sized element type (the values
carry no data, so pushes carry none either). -/
inductive ZOp where
  | push
  | pop
deriving DecidableEq

/-- `RingBuffer<T>` at a zero-sized `T`: the `RawRingBuffer::Zerosized`
branch holds a `Vec<T>` of a zero-sized type, which at run time is nothing
but its length (`len`); its `Vec::capacity()` reports `usize::MAX`.
All values of `T` are identical, so a popped value is modelled as `Unit`. -/
structure RingBufferZ where
  start : Nat
  size : Nat
  len : Nat
deriving DecidableEq

namespace RingBufferZ

/-- `with_capacity(cap)`, zero-sized branch: `Zerosized(Vec::new())` —
the requested capacity is ignored. -/
def withCapacity (_cap : Nat) : RingBufferZ := ⟨0, 0, 0⟩

/-- `capacity()`: `Vec::<ZST>::capacity()` is `usize::MAX`. -/
def capacity (_s : RingBufferZ) : Nat := usizeMax

/-- `push`, zero-sized branch: `(start + size) % capacity` is well defined
(`capacity = usizeMax ≠ 0` and `idx` is unused by the `Zerosized` arm);
`v.push(element)` increments `len`, except that a `Vec` of a zero-sized
type at `len = usize::MAX` cannot grow and panics with a capacity
overflow.  Then the shared full-check runs against the old `size`. -/
def push (s : RingBufferZ) : Option RingBufferZ :=
  if s.len = usizeMax then none
  else
    if s.size = usizeMax then
      some { start := s.start + 1, size := s.size, len := s.len + 1 }
    else
      some { start := s.start, size := s.size + 1, len := s.len + 1 }

/-- `pop`, zero-sized branch: advances `start` modulo `usizeMax`,
decrements `size`, and returns `v.pop()` — a value token iff `len ≠ 0`. -/
def pop (s : RingBufferZ) : Option (Option Unit × RingBufferZ) :=
  if s.size = 0 then some (none, s)
  else
    let s' : RingBufferZ :=
      { start := (s.start + 1) % usizeMax, size := s.size - 1, len := s.len }
    if s.len = 0 then some (none, s')
    else some (some (), { s' with len := s.len - 1 })

/-- Iterated `push`. -/
def pushN : Nat → RingBufferZ → Option RingBufferZ
  | 0, s => some s
  | n + 1, s => s.push.bind (pushN n)

/-- Run a sequence of operations. -/
def run : RingBufferZ → List ZOp → Option (List (Option Unit) × RingBufferZ)
  | s, [] => some ([], s)
  | s, ZOp.push :: ops => s.push.bind fun s' => run s' ops
  | s, ZOp.pop :: ops =>
      s.pop.bind fun p => (run p.2 ops).map fun q => (p.1 :: q.1, q.2)

end RingBufferZ

/-- `RingBufferU<T>` at a zero-sized `T`: `MaybeUninit<T>` is zero-sized
too, so the storage `Vec` is again just a length — `cap` after
`with_capacity(cap)` pushed `cap` uninit slots — while `Vec::capacity()`
reports `usize::MAX`.  Slot contents do not exist at run time; the
bounds checks of `get_mut(idx).unwrap()` and `buffer[idx] = …` remain. -/
structure RingBufferUZ where
  start : Nat
  size : Nat
  len : Nat
deriving DecidableEq

namespace RingBufferUZ

/-- `with_capacity(cap)`: `cap` uninit slots. -/
def withCapacity (cap : Nat) : RingBufferUZ := ⟨0, 0, cap⟩

/-- `capacity()` is `usize::MAX` for a zero-sized element. -/
def capacity (_s : RingBufferUZ) : Nat := usizeMax

/-- `push`: `idx := (start + size) % usizeMax`; the full branch needs
`get_mut(idx).unwrap()` (panic when `idx ≥ len`), and the final
`buffer[idx] = MaybeUninit::new(element)` is itself bounds-checked. -/
def push (s : RingBufferUZ) : Option RingBufferUZ :=
  let idx := (s.start + s.size) % usizeMax
  let afterBranch : Option RingBufferUZ :=
    if s.size = usizeMax then
      if idx < s.len then some { s with start := s.start + 1 } else none
    else
      some { s with size := s.size + 1 }
  afterBranch.bind fun s' => if idx < s'.len then some s' else none

/-- `pop`: `get_mut(start).unwrap()` panics when `start ≥ len`; a
zero-sized `assume_init` yields the unique value. -/
def pop (s : RingBufferUZ) : Option (Option Unit × RingBufferUZ) :=
  if s.size = 0 then some (none, s)
  else
    if s.start < s.len then
      some (some (),
        { s with start := (s.start + 1) % usizeMax, size := s.size - 1 })
    else none

/-- Iterated `push`. -/
def pushN : Nat → RingBufferUZ → Option RingBufferUZ
  | 0, s => some s
  | n + 1, s => s.push.bind (pushN n)

/-- Run a sequence of operations. -/
def run : RingBufferUZ → List ZOp → Option (List (Option Unit) × RingBufferUZ)
  | s, [] => some ([], s)
  | s, ZOp.push :: ops => s.push.bind fun s' => run s' ops
  | s, ZOp.pop :: ops =>
      s.pop.bind fun p => (run p.2 ops).map fun q => (p.1 :: q.1, q.2)

end RingBufferUZ

/-- Index `j` lies in the occupied range of a sized-mode tagged buffer:
`j = (start + k) % capacity` for some `k < size`. -/
def RingBuffer.Occupied {T : Type} (s : RingBuffer T) (j : Nat) : Prop :=
  ∃ k, k < s.size ∧ (s.start + k) % s.capacity = j

/-- Data-model invariant of reachable sized-mode tagged states: `size`
never exceeds the capacity and a storage slot holds a value exactly when
its index is in the occupied range. -/
def RingBuffer.Inv {T : Type} (s : RingBuffer T) : Prop :=
  s.size ≤ s.capacity ∧
  ∀ j, j < s.capacity →
    ∃ o, s.buffer[j]? = some o ∧ (o.isSome ↔ s.Occupied j)

/-- Reinterpret a tagged-slot state as a raw-slot state: a slot holding a
value becomes an initialized slot, an empty slot an uninitialized one. -/
def RingBuffer.toU {T : Type} (s : RingBuffer T) : RingBufferU T :=
  ⟨s.start, s.size, s.buffer⟩

/-! Sanity checks reproducing the crate's own unit tests (`push_pop_test`,
`overwrite_test`, and the prefix of `iter_test`). -/

example :
    RingBuffer.run (RingBuffer.withCapacity 2)
      [Op.pop, Op.push 3, Op.pop, Op.pop] =
    some ([none, some 3, none], ⟨1, 0, [none, none]⟩) := by decide

example :
    (RingBuffer.run (RingBuffer.withCapacity 3)
      [Op.push 1, Op.push 2, Op.push 3, Op.push 4, Op.pop, Op.pop, Op.pop]).map
        Prod.fst = some [some 2, some 3, some 4] := by decide

example :
    (RingBufferU.run (RingBufferU.withCapacity 3)
      [Op.push 1, Op.push 2, Op.push 3, Op.push 4, Op.pop, Op.pop, Op.pop]).map
        Prod.fst = some [some 2, some 3, some 4] := by decide

example :
    (RingBuffer.run (RingBuffer.withCapacity 7)
      ((List.range 7).map Op.push ++ [Op.pop, Op.pop, Op.push 7])).bind
        (fun p => (RBIter.collect 8 p.2).map Prod.fst) =
    some [2, 3, 4, 5, 6, 7] := by decide

/-!
Claim theorems for concrete runs.

The central defect they exercise: in both `RingBuffer::push` and
`RingBufferU::push`, the full case executes `self.start += 1` with no
reduction modulo the capacity, so once `start` reaches `capacity` the next
`pop` (and the iterator's `next`, and `Drop`'s cleanup loop) evaluates
`get_mut(start).unwrap()` out of bounds and panics.
-/

/-- C1: pushing twice into a fresh capacity-1 buffer leaves `start = 1`,
which is NOT below the capacity 1 and is not `(0 + 1) % 1 = 0`; the claimed
invariant `0 ≤ start < capacity` is violated by the code (the full branch
of `push` omits the reduction modulo capacity), and the next `pop` panics. -/
theorem c1_push_full_start_escapes_capacity :
    (RingBuffer.run (RingBuffer.withCapacity 1) [Op.push 10, Op.push 20] =
        some ([], ⟨1, 1, [some 20]⟩) ∧
      ¬ ((⟨1, 1, [some 20]⟩ : RingBuffer Nat).start <
          (⟨1, 1, [some 20]⟩ : RingBuffer Nat).capacity) ∧
      RingBuffer.pop (⟨1, 1, [some 20]⟩ : RingBuffer Nat) = none) ∧
    (RingBufferU.run (RingBufferU.withCapacity 1) [Op.push 10, Op.push 20] =
        some ([], ⟨1, 1, [some 20]⟩) ∧
      ¬ ((⟨1, 1, [some 20]⟩ : RingBufferU Nat).start <
          (⟨1, 1, [some 20]⟩ : RingBufferU Nat).capacity) ∧
      RingBufferU.pop (⟨1, 1, [some 20]⟩ : RingBufferU Nat) = none) := by
  decide

/-- C2: pushing 1 then 2 into a capacity-1 buffer and popping should, per
the claim, yield the last value 2 — instead the pop panics (out-of-bounds
`unwrap`), because the overwriting push left `start = 1 = capacity`. -/
theorem c2_pop_after_wraparound_panics :
    RingBuffer.run (RingBuffer.withCapacity 1) [Op.push 1, Op.push 2, Op.pop] =
      none ∧
    RingBufferU.run (RingBufferU.withCapacity 1) [Op.push 1, Op.push 2, Op.pop] =
      none := by
  decide

/-- C7: the state reached by pushing twice into a capacity-1 buffer is
non-empty (`size = 1`), yet draining its consuming iterator panics at the
first `next` (for any iteration budget) instead of yielding the single
logical element — same missing-modulo defect as C1. -/
theorem c7_collect_on_wrapped_buffer_panics :
    (RingBuffer.run (RingBuffer.withCapacity 1) [Op.push 10, Op.push 20] =
        some ([], ⟨1, 1, [some 20]⟩) ∧
      ∀ fuel, RBIter.collect (fuel + 1) (⟨1, 1, [some 20]⟩ : RingBuffer Nat) =
        none) ∧
    (RingBufferU.run (RingBufferU.withCapacity 1) [Op.push 10, Op.push 20] =
        some ([], ⟨1, 1, [some 20]⟩) ∧
      ∀ fuel, RBUIter.collect (fuel + 1) (⟨1, 1, [some 20]⟩ : RingBufferU Nat) =
        none) := by
  exact ⟨⟨by decide, fun _ => rfl⟩, ⟨by decide, fun _ => rfl⟩⟩

/-- C9: discarding a `RingBufferU` holding one remaining element after a
wraparound push panics inside `Drop`'s `while size > 0 {pop()}` loop (for
any iteration budget) instead of destroying the element and reaching
`size = 0`. -/
theorem c9_drop_cleanup_panics :
    RingBufferU.run (RingBufferU.withCapacity 1) [Op.push 10, Op.push 20] =
      some ([], ⟨1, 1, [some 20]⟩) ∧
    ∀ fuel, RingBufferU.dropLoop fuel (⟨1, 1, [some 20]⟩ : RingBufferU Nat) =
      none := by
  refine ⟨by decide, fun fuel => ?_⟩
  cases fuel <;> rfl

/-- C8: popping any buffer with `size = 0` — in either component, for
sized or zero-sized elements — returns the empty result and leaves the
state (start, size, storage) completely unchanged. -/
theorem c8_pop_empty_is_identity :
    ∀ (T : Type) (s : RingBuffer T) (u : RingBufferU T) (z : RingBufferZ)
      (uz : RingBufferUZ),
      (s.size = 0 → s.pop = some (none, s)) ∧
      (u.size = 0 → u.pop = some (none, u)) ∧
      (z.size = 0 → z.pop = some (none, z)) ∧
      (uz.size = 0 → uz.pop = some (none, uz)) := by
  intro T s u z uz
  refine ⟨fun h => ?_, fun h => ?_, fun h => ?_, fun h => ?_⟩ <;>
    simp [RingBuffer.pop, RingBufferU.pop, RingBufferZ.pop, RingBufferUZ.pop, h]

/-- Witness for C8 at concrete empty buffers. -/
theorem c8_pop_empty_is_identity_witness :
    RingBuffer.pop (⟨0, 0, [none, none]⟩ : RingBuffer Nat) =
      some (none, ⟨0, 0, [none, none]⟩) ∧
    RingBufferU.pop (⟨1, 0, [some 9, none]⟩ : RingBufferU Nat) =
      some (none, ⟨1, 0, [some 9, none]⟩) ∧
    RingBufferZ.pop ⟨0, 0, 0⟩ = some (none, ⟨0, 0, 0⟩) ∧
    RingBufferUZ.pop ⟨2, 0, 3⟩ = some (none, ⟨2, 0, 3⟩) := by
  have h := c8_pop_empty_is_identity Nat ⟨0, 0, [none, none]⟩
    ⟨1, 0, [some 9, none]⟩ ⟨0, 0, 0⟩ ⟨2, 0, 3⟩
  exact ⟨h.1 rfl, h.2.1 rfl, h.2.2.1 rfl, h.2.2.2 rfl⟩

/-- C4 counterexample: with a non-zero-sized element type and capacity 0,
the very first `push` is NOT a defined, non-faulting operation — it panics
computing `(start + size) % 0`, in both components. -/
theorem c4_counterexample_cap_zero_push_faults :
    RingBuffer.push (RingBuffer.withCapacity 0) (0 : Nat) = none ∧
    RingBufferU.push (RingBufferU.withCapacity 0) (0 : Nat) = none := by
  decide

/-- C4 amended: every push on a capacity-0 sized-element buffer faults
(remainder by zero) rather than completing an immediate eviction; hence a
fresh capacity-0 buffer is never mutated, its size is 0, and pop yields
the defined empty result. -/
theorem c4_cap_zero_push_always_faults (T : Type) (x : T)
    (s : RingBuffer T) (u : RingBufferU T)
    (hs : s.capacity = 0) (hu : u.capacity = 0) :
    s.push x = none ∧ u.push x = none ∧
    (RingBuffer.withCapacity 0 : RingBuffer T).size = 0 ∧
    (RingBuffer.withCapacity 0 : RingBuffer T).pop =
      some (none, RingBuffer.withCapacity 0) ∧
    (RingBufferU.withCapacity 0 : RingBufferU T).pop =
      some (none, RingBufferU.withCapacity 0) := by
  refine ⟨?_, ?_, rfl, ?_, ?_⟩
  · simp [RingBuffer.push, hs]
  · simp [RingBufferU.push, hu]
  · simp [RingBuffer.pop, RingBuffer.withCapacity]
  · simp [RingBufferU.pop, RingBufferU.withCapacity]

/-- Witness for C4's amended theorem at a concrete capacity-0 buffer. -/
theorem c4_cap_zero_push_always_faults_witness :
    RingBuffer.push (⟨3, 0, []⟩ : RingBuffer Nat) 7 = none ∧
    RingBufferU.push (⟨3, 0, []⟩ : RingBufferU Nat) 7 = none ∧
    (RingBuffer.withCapacity 0 : RingBuffer Nat).size = 0 ∧
    (RingBuffer.withCapacity 0 : RingBuffer Nat).pop =
      some (none, RingBuffer.withCapacity 0) ∧
    (RingBufferU.withCapacity 0 : RingBufferU Nat).pop =
      some (none, RingBufferU.withCapacity 0) := by
  have h := c4_cap_zero_push_always_faults Nat 7 ⟨3, 0, []⟩ ⟨3, 0, []⟩ rfl rfl
  exact h

/-- C3 counterexample: on a capacity-2 buffer, the interleaved sequence
push 1, pop, push 2, push 3, push 4 runs without fault and ends with
`size = 2`, while the claimed formula `min(pushes, capacity) − pops`
clamped at 0 gives `min 4 2 − 1 = 1`. -/
theorem c3_counterexample_interleaving_formula :
    RingBuffer.run (RingBuffer.withCapacity 2)
        [Op.push 1, Op.pop, Op.push 2, Op.push 3, Op.push 4] =
      some ([some 1], ⟨2, 2, [some 3, some 4]⟩) ∧
    (⟨2, 2, [some 3, some 4]⟩ : RingBuffer Nat).size ≠ min 4 2 - 1 := by
  decide

/-! Invariant preservation for the sized-mode tagged buffer. -/

/-- Writing inside the list, then reading anywhere. -/
theorem getElem?_set_lt {α : Type} {l : List α} {i : Nat} (j : Nat) (a : α)
    (hi : i < l.length) :
    (l.set i a)[j]? = if i = j then some a else l[j]? := by
  by_cases hij : i = j
  · subst hij
    simp [List.getElem?_set_eq_of_lt a hi]
  · simp [List.getElem?_set_ne hij, hij]

/-- Every residue below `cap` is hit by `(a + k) % cap` for some `k < cap`. -/
theorem exists_add_mod_eq (a j : Nat) {cap : Nat} (hcap : 0 < cap)
    (hj : j < cap) : ∃ k, k < cap ∧ (a + k) % cap = j := by
  refine ⟨(cap - a % cap + j) % cap, Nat.mod_lt _ hcap, ?_⟩
  have h1 : a % cap < cap := Nat.mod_lt _ hcap
  have h2 : (a + (cap - a % cap + j) % cap) % cap
      = (a + (cap - a % cap + j)) % cap := by
    conv_lhs => rw [Nat.add_mod]
    conv_rhs => rw [Nat.add_mod]
    rw [Nat.mod_mod_of_dvd _ dvd_rfl]
  have h3 : a + (cap - a % cap + j) = j + cap * (a / cap + 1) := by
    have h4 := Nat.div_add_mod a cap
    have h5 : cap * (a / cap + 1) = cap * (a / cap) + cap := by ring
    omega
  rw [h2, h3, Nat.add_mul_mod_self_left, Nat.mod_eq_of_lt hj]

/-- `k ↦ (a + k) % cap` is injective on `k < cap`. -/
theorem add_mod_inj {a cap k m : Nat} (hk : k < cap) (hm : m < cap)
    (h : (a + k) % cap = (a + m) % cap) : k = m := by
  have h2 : k ≡ m [MOD cap] := Nat.ModEq.add_left_cancel' a h
  have h3 : k % cap = m % cap := h2
  rwa [Nat.mod_eq_of_lt hk, Nat.mod_eq_of_lt hm] at h3

/-- A full buffer's occupied range covers every slot. -/
theorem RingBuffer.occupied_of_full {T : Type} {s : RingBuffer T}
    (hfull : s.capacity ≤ s.size) (hcap : 0 < s.capacity) {j : Nat}
    (hj : j < s.capacity) : s.Occupied j := by
  obtain ⟨k, hk, he⟩ := exists_add_mod_eq s.start j hcap hj
  exact ⟨k, by omega, he⟩

/-- A fresh buffer satisfies the invariant. -/
theorem RingBuffer.inv_withCapacity (T : Type) (cap : Nat) :
    RingBuffer.Inv (RingBuffer.withCapacity (T := T) cap) := by
  constructor
  · simp [withCapacity, capacity]
  · intro j hj
    simp only [withCapacity, capacity, List.length_replicate] at hj
    refine ⟨none, ?_, ?_⟩
    · show (List.replicate cap (none : Option T))[j]? = some none
      rw [List.getElem?_eq_getElem (by simpa using hj), List.getElem_replicate]
    · simp only [Option.isSome_none, Bool.false_eq_true, false_iff]
      rintro ⟨k, hk, -⟩
      simp [withCapacity] at hk

/-- Characterization of a successful `push` on the tagged buffer. -/
theorem RingBuffer.push_eq {T : Type} {s s' : RingBuffer T} {x : T}
    (h : s.push x = some s') :
    0 < s.capacity ∧
    s'.buffer = s.buffer.set ((s.start + s.size) % s.capacity) (some x) ∧
    ((s.size = s.capacity ∧ s'.start = s.start + 1 ∧ s'.size = s.size) ∨
     (s.size ≠ s.capacity ∧ s'.start = s.start ∧ s'.size = s.size + 1)) := by
  unfold push at h
  by_cases hc : s.capacity = 0
  · simp [hc] at h
  refine ⟨Nat.pos_of_ne_zero hc, ?_⟩
  simp only [hc, if_false] at h
  by_cases hfull : s.size = s.capacity
  · simp only [hfull, if_true, Option.some.injEq] at h
    subst h
    exact ⟨by rw [hfull], Or.inl ⟨hfull, rfl, hfull.symm⟩⟩
  · simp only [hfull, if_false, Option.some.injEq] at h
    subst h
    exact ⟨rfl, Or.inr ⟨hfull, rfl, rfl⟩⟩

/-- Characterization of a successful `pop` on the tagged buffer. -/
theorem RingBuffer.pop_eq {T : Type} {s s' : RingBuffer T} {v : Option T}
    (h : s.pop = some (v, s')) :
    (s.size = 0 ∧ v = none ∧ s' = s) ∨
    (s.size ≠ 0 ∧ 0 < s.capacity ∧ s.start < s.capacity ∧
     s.buffer[s.start]? = some v ∧
     s'.start = (s.start + 1) % s.capacity ∧ s'.size = s.size - 1 ∧
     s'.buffer = s.buffer.set s.start none) := by
  unfold pop at h
  by_cases h0 : s.size = 0
  · simp only [h0, if_true, Option.some.injEq, Prod.mk.injEq] at h
    exact Or.inl ⟨h0, h.1.symm, h.2.symm⟩
  by_cases hc : s.capacity = 0
  · simp [h0, hc] at h
  simp only [h0, hc, if_false] at h
  match hg : s.buffer[s.start]? with
  | none => rw [hg] at h; cases h
  | some slot =>
      rw [hg] at h
      simp only [Option.some.injEq, Prod.mk.injEq] at h
      obtain ⟨hv, hs⟩ := h
      subst hv
      subst hs
      have hlt : s.start < s.capacity := by
        by_contra hge
        rw [List.getElem?_eq_none (by simpa [capacity] using Nat.le_of_not_lt hge)] at hg
        cases hg
      exact Or.inr ⟨h0, Nat.pos_of_ne_zero hc, hlt, rfl, rfl, rfl, rfl⟩

/-- `push` preserves the invariant and the capacity. -/
theorem RingBuffer.push_inv {T : Type} {s s' : RingBuffer T} {x : T}
    (hInv : s.Inv) (h : s.push x = some s') :
    s'.Inv ∧ s'.capacity = s.capacity := by
  obtain ⟨hsz, hslots⟩ := hInv
  obtain ⟨hLpos, hbuf, hcase⟩ := push_eq h
  have hlen : s.capacity = s.buffer.length := rfl
  have hidxlt : (s.start + s.size) % s.capacity < s.buffer.length :=
    hlen ▸ Nat.mod_lt _ hLpos
  have hcap' : s'.capacity = s.capacity := by
    simp [capacity, hbuf, List.length_set, hlen]
  have hget : ∀ j, s'.buffer[j]? =
      if (s.start + s.size) % s.capacity = j then some (some x)
      else s.buffer[j]? := by
    intro j
    rw [hbuf, getElem?_set_lt j (some x) hidxlt]
  rcases hcase with ⟨hfull, hst, hsz'⟩ | ⟨hfull, hst, hsz'⟩
  · -- overwrite: the buffer was and stays completely occupied
    refine ⟨⟨by omega, ?_⟩, hcap'⟩
    intro j hj
    rw [hcap'] at hj
    have hocc' : s'.Occupied j := by
      apply occupied_of_full (by omega) (by omega)
      omega
    by_cases hij : (s.start + s.size) % s.capacity = j
    · exact ⟨some x, by rw [hget j, if_pos hij], by simp [hocc']⟩
    · obtain ⟨o, ho, hiff⟩ := hslots j hj
      refine ⟨o, by rw [hget j, if_neg hij]; exact ho, ?_⟩
      have hocc : s.Occupied j := occupied_of_full (by omega) hLpos hj
      simp [hiff.mpr hocc, hocc']
  · -- append: the new write index joins the occupied range
    refine ⟨⟨by omega, ?_⟩, hcap'⟩
    intro j hj
    rw [hcap'] at hj
    by_cases hij : (s.start + s.size) % s.capacity = j
    · refine ⟨some x, by rw [hget j, if_pos hij], ?_⟩
      have hocc' : s'.Occupied j :=
        ⟨s.size, by omega, by rw [hst, hcap']; exact hij⟩
      simp [hocc']
    · obtain ⟨o, ho, hiff⟩ := hslots j hj
      refine ⟨o, by rw [hget j, if_neg hij]; exact ho, ?_⟩
      rw [hiff]
      constructor
      · rintro ⟨k, hk, he⟩
        exact ⟨k, by omega, by rw [hst, hcap']; exact he⟩
      · rintro ⟨k, hk, he⟩
        rw [hst, hcap'] at he
        rw [hsz'] at hk
        rcases Nat.lt_succ_iff_lt_or_eq.mp hk with hk' | hk'
        · exact ⟨k, hk', he⟩
        · subst hk'
          exact absurd he hij

/-- `pop` preserves the invariant and the capacity. -/
theorem RingBuffer.pop_inv {T : Type} {s s' : RingBuffer T} {v : Option T}
    (hInv : s.Inv) (h : s.pop = some (v, s')) :
    s'.Inv ∧ s'.capacity = s.capacity := by
  obtain ⟨hsz, hslots⟩ := hInv
  rcases pop_eq h with ⟨-, -, hs⟩ | ⟨h0, hLpos, hlt, -, hst, hsz', hbuf⟩
  · subst hs; exact ⟨⟨hsz, hslots⟩, rfl⟩
  have hlen : s.capacity = s.buffer.length := rfl
  have hcap' : s'.capacity = s.capacity := by
    simp [capacity, hbuf, List.length_set, hlen]
  have hget : ∀ j, s'.buffer[j]? =
      if s.start = j then some none else s.buffer[j]? := by
    intro j
    rw [hbuf, getElem?_set_lt j none (hlen ▸ hlt)]
  refine ⟨⟨by omega, ?_⟩, hcap'⟩
  intro j hj
  rw [hcap'] at hj
  by_cases hij : s.start = j
  · refine ⟨none, by rw [hget j, if_pos hij], ?_⟩
    simp only [Option.isSome_none, Bool.false_eq_true, false_iff]
    rintro ⟨k, hk, he⟩
    rw [hst, hcap'] at he
    rw [hsz'] at hk
    rw [Nat.mod_add_mod] at he
    have he2 : (s.start + (1 + k)) % s.capacity = (s.start + 0) % s.capacity := by
      have e1 : s.start + (1 + k) = s.start + 1 + k := by omega
      rw [e1, he, Nat.add_zero, Nat.mod_eq_of_lt hlt, hij]
    have := add_mod_inj (a := s.start) (by omega) (by omega) he2
    omega
  · obtain ⟨o, ho, hiff⟩ := hslots j hj
    refine ⟨o, by rw [hget j, if_neg hij]; exact ho, ?_⟩
    rw [hiff]
    constructor
    · rintro ⟨k, hk, he⟩
      rcases Nat.eq_zero_or_pos k with hk0 | hk0
      · subst hk0
        rw [Nat.add_zero, Nat.mod_eq_of_lt hlt] at he
        exact absurd he hij
      · refine ⟨k - 1, by omega, ?_⟩
        rw [hst, hcap', Nat.mod_add_mod]
        rw [← he]
        congr 1
        omega
    · rintro ⟨k, hk, he⟩
      rw [hst, hcap', Nat.mod_add_mod] at he
      rw [hsz'] at hk
      refine ⟨k + 1, by omega, ?_⟩
      rw [← he]
      congr 1
      omega

/-- A successful run preserves the invariant and the capacity. -/
theorem RingBuffer.run_inv {T : Type} (ops : List (Op T)) :
    ∀ {s s' : RingBuffer T} {out : List (Option T)},
      s.Inv → RingBuffer.run s ops = some (out, s') →
      s'.Inv ∧ s'.capacity = s.capacity := by
  induction ops with
  | nil =>
      intro s s' out hInv h
      simp only [run, Option.some.injEq, Prod.mk.injEq] at h
      rw [← h.2]
      exact ⟨hInv, rfl⟩
  | cons op ops ih =>
      intro s s' out hInv h
      cases op with
      | push x =>
          match hp : s.push x with
          | none => rw [run, hp] at h; cases h
          | some s₁ =>
              rw [run, hp, Option.some_bind] at h
              obtain ⟨hInv₁, hcap₁⟩ := push_inv hInv hp
              obtain ⟨hInv', hcap'⟩ := ih hInv₁ h
              exact ⟨hInv', hcap'.trans hcap₁⟩
      | pop =>
          match hp : s.pop with
          | none => rw [run, hp] at h; cases h
          | some (v, s₁) =>
              rw [run, hp, Option.some_bind] at h
              match hr : RingBuffer.run s₁ ops with
              | none => rw [hr] at h; cases h
              | some (vs, s₂) =>
                  rw [hr] at h
                  simp only [Option.map_some', Option.some.injEq,
                    Prod.mk.injEq] at h
                  obtain ⟨hInv₁, hcap₁⟩ := pop_inv hInv hp
                  obtain ⟨hInv', hcap'⟩ := ih hInv₁ hr
                  rw [← h.2]
                  exact ⟨hInv', hcap'.trans hcap₁⟩

/-! Observational equivalence of the two sized-mode components. -/

/-- Under the invariant, `RingBufferU::push` acts on the reinterpreted
state exactly as `RingBuffer::push` does, faults included: the only extra
step of the raw-slot version — destroying the old occupant on overwrite —
always finds an initialized slot. -/
theorem RingBuffer.push_toU {T : Type} {s : RingBuffer T} (hInv : s.Inv)
    (x : T) : RingBufferU.push s.toU x = (s.push x).map RingBuffer.toU := by
  obtain ⟨hsz, hslots⟩ := hInv
  have hcapU : s.toU.capacity = s.capacity := rfl
  have hstU : s.toU.start = s.start := rfl
  have hszU : s.toU.size = s.size := rfl
  have hbufU : s.toU.buffer = s.buffer := rfl
  by_cases hc : s.capacity = 0
  · rw [RingBufferU.push, push]
    simp [hcapU, hc]
  have hLpos : 0 < s.capacity := Nat.pos_of_ne_zero hc
  have hidxlt : (s.start + s.size) % s.capacity < s.capacity :=
    Nat.mod_lt _ hLpos
  rw [RingBufferU.push, push]
  simp only [hcapU, hstU, hszU, hbufU, hc, if_false]
  by_cases hfull : s.size = s.capacity
  · simp only [hfull, if_pos rfl]
    obtain ⟨o, ho, hiff⟩ := hslots _ hidxlt
    obtain ⟨v, hv⟩ := Option.isSome_iff_exists.mp
      (hiff.mpr (occupied_of_full (le_of_eq hfull.symm) hLpos hidxlt))
    subst hv
    rw [show (s.start + s.capacity) % s.capacity
          = (s.start + s.size) % s.capacity by rw [hfull], ho]
    rfl
  · simp only [hfull, if_neg hfull]
    rfl

/-- Projections of the reinterpretation map. -/
theorem RingBuffer.toU_start {T : Type} (s : RingBuffer T) :
    s.toU.start = s.start := rfl

theorem RingBuffer.toU_size {T : Type} (s : RingBuffer T) :
    s.toU.size = s.size := rfl

theorem RingBuffer.toU_buffer {T : Type} (s : RingBuffer T) :
    s.toU.buffer = s.buffer := rfl

theorem RingBuffer.toU_capacity {T : Type} (s : RingBuffer T) :
    s.toU.capacity = s.capacity := rfl

/-- Under the invariant, `RingBufferU::pop` acts on the reinterpreted
state exactly as `RingBuffer::pop` does, faults included: whenever
`size ≠ 0` and the read is in range, the slot at `start` is occupied, so
the raw-slot version never reads an uninitialized slot. -/
theorem RingBuffer.pop_toU {T : Type} {s : RingBuffer T} (hInv : s.Inv) :
    RingBufferU.pop s.toU = (s.pop).map fun p => (p.1, p.2.toU) := by
  obtain ⟨hsz, hslots⟩ := hInv
  rw [RingBufferU.pop, pop]
  simp only [toU_capacity, toU_start, toU_size, toU_buffer]
  by_cases h0 : s.size = 0
  · simp only [h0, if_pos rfl, Option.map_some']
    rfl
  by_cases hc : s.capacity = 0
  · simp [h0, hc]
  simp only [if_neg h0, if_neg hc]
  match ho : s.buffer[s.start]? with
  | none => simp
  | some slot =>
      have hlt : s.start < s.capacity := by
        by_contra hge
        rw [List.getElem?_eq_none
          (show s.buffer.length ≤ s.start from Nat.le_of_not_lt hge)] at ho
        cases ho
      obtain ⟨o, ho2, hiff⟩ := hslots s.start hlt
      have hoslot : o = slot := Option.some.inj (ho2.symm.trans ho)
      subst hoslot
      obtain ⟨v, hv⟩ := Option.isSome_iff_exists.mp
        (hiff.mpr ⟨0, by omega, by rw [Nat.add_zero, Nat.mod_eq_of_lt hlt]⟩)
      subst hv
      rfl

/-- Running any operation sequence commutes with reinterpretation: the
raw-slot buffer produces the same outputs, the same faults, and the
componentwise same states as the tagged buffer. -/
theorem RingBuffer.run_toU {T : Type} (ops : List (Op T)) :
    ∀ {s : RingBuffer T}, s.Inv →
      RingBufferU.run s.toU ops =
        (RingBuffer.run s ops).map fun p => (p.1, p.2.toU) := by
  induction ops with
  | nil =>
      intro s hInv
      simp [RingBufferU.run, run]
  | cons op ops ih =>
      intro s hInv
      cases op with
      | push x =>
          rw [RingBufferU.run, run, push_toU hInv x]
          match hp : s.push x with
          | none => simp
          | some s₁ =>
              simp only [Option.map_some', Option.some_bind]
              exact ih (push_inv hInv hp).1
      | pop =>
          rw [RingBufferU.run, run, pop_toU hInv]
          match hp : s.pop with
          | none => simp
          | some (v, s₁) =>
              simp only [Option.map_some', Option.some_bind]
              rw [ih (pop_inv hInv hp).1]
              cases RingBuffer.run s₁ ops with
              | none => simp
              | some q => simp

/-- C6 amended: for every NON-zero-sized element type the raw-slot and
tagged-slot buffers are observationally equivalent: running any operation
sequence from `with_capacity(cap)` yields identical pop results, identical
panic behaviour, and componentwise identical states (hence identical
`capacity()` answers).  For zero-sized element types the claim fails —
see the counterexample theorem. -/
theorem c6_sized_observational_equivalence (T : Type) (cap : Nat)
    (ops : List (Op T)) :
    RingBufferU.run (RingBufferU.withCapacity cap) ops =
      (RingBuffer.run (RingBuffer.withCapacity cap) ops).map fun p =>
        (p.1, p.2.toU) :=
  RingBuffer.run_toU ops (RingBuffer.inv_withCapacity T cap)

/-- C6 counterexample: for a zero-sized element type and requested
capacity 0, pushing once and popping once succeeds on `RingBuffer`
(the pop returns a value) but panics on `RingBufferU` (the slot write
`buffer[idx] = …` is out of bounds), so the two components are NOT
observationally equivalent for every element type. -/
theorem c6_counterexample_zst_divergence :
    RingBufferZ.run (RingBufferZ.withCapacity 0) [ZOp.push, ZOp.pop] =
      some ([some ()], ⟨1, 0, 0⟩) ∧
    RingBufferUZ.run (RingBufferUZ.withCapacity 0) [ZOp.push, ZOp.pop] =
      none := by
  decide

/-- C10: after any successfully executed sequence of pushes and pops from
a fresh sized-mode tagged buffer of capacity `cap ≥ 1`, a storage slot
holds a value exactly when its index lies in
`{(start + k) % cap | k < size}`, and every other slot holds `None`. -/
theorem c10_tagged_slot_occupancy (T : Type) (cap : Nat) (ops : List (Op T))
    (out : List (Option T)) (s : RingBuffer T) (_hcap : 1 ≤ cap)
    (h : RingBuffer.run (RingBuffer.withCapacity cap) ops = some (out, s)) :
    s.capacity = cap ∧
    ∀ j, j < cap →
      ∃ o, s.buffer[j]? = some o ∧
        ((∃ v, o = some v) ↔ ∃ k, k < s.size ∧ (s.start + k) % cap = j) := by
  obtain ⟨⟨hsz, hslots⟩, hc⟩ :=
    RingBuffer.run_inv ops (RingBuffer.inv_withCapacity T cap) h
  have hc2 : s.capacity = cap := by
    simpa [RingBuffer.capacity, RingBuffer.withCapacity] using hc
  refine ⟨hc2, ?_⟩
  intro j hj
  obtain ⟨o, ho, hiff⟩ := hslots j (by rw [hc2]; exact hj)
  refine ⟨o, ho, ?_⟩
  rw [← Option.isSome_iff_exists, hiff]
  unfold RingBuffer.Occupied
  rw [hc2]

/-- Witness for C10: one push into a fresh capacity-1 buffer. -/
theorem c10_tagged_slot_occupancy_witness :
    (1 ≤ 1 ∧
      RingBuffer.run (RingBuffer.withCapacity 1) [Op.push (7 : Nat)] =
        some ([], ⟨0, 1, [some 7]⟩)) ∧
    ((⟨0, 1, [some 7]⟩ : RingBuffer Nat).capacity = 1 ∧
      ∀ j, j < 1 →
        ∃ o, (⟨0, 1, [some 7]⟩ : RingBuffer Nat).buffer[j]? = some o ∧
          ((∃ v, o = some v) ↔
            ∃ k, k < (⟨0, 1, [some 7]⟩ : RingBuffer Nat).size ∧
              ((⟨0, 1, [some 7]⟩ : RingBuffer Nat).start + k) % 1 = j)) :=
  ⟨⟨by decide, by decide⟩,
    c10_tagged_slot_occupancy Nat 1 [Op.push 7] [] ⟨0, 1, [some 7]⟩
      (by decide) (by decide)⟩

/-! Size accounting for the tagged buffer. -/

/-- A run over concatenated operation lists decomposes sequentially. -/
theorem RingBuffer.run_append {T : Type} (l₁ l₂ : List (Op T)) :
    ∀ s : RingBuffer T, RingBuffer.run s (l₁ ++ l₂) =
      (RingBuffer.run s l₁).bind fun p =>
        (RingBuffer.run p.2 l₂).map fun q => (p.1 ++ q.1, q.2) := by
  induction l₁ with
  | nil =>
      intro s
      simp only [List.nil_append, run, Option.some_bind]
      cases RingBuffer.run s l₂ with
      | none => simp
      | some q => simp
  | cons op l₁ ih =>
      intro s
      cases op with
      | push x =>
          rw [List.cons_append, run, run]
          cases s.push x with
          | none => simp
          | some s₁ =>
              simp only [Option.some_bind]
              exact ih s₁
      | pop =>
          rw [List.cons_append, run, run]
          cases s.pop with
          | none => simp
          | some p =>
              simp only [Option.some_bind]
              rw [ih p.2]
              cases RingBuffer.run p.2 l₁ with
              | none => simp
              | some q =>
                  simp only [Option.some_bind, Option.map_some']
                  cases RingBuffer.run q.2 l₂ with
                  | none => simp
                  | some r => simp

/-- `push` fails exactly on capacity zero. -/
theorem RingBuffer.push_none_iff {T : Type} {s : RingBuffer T} {x : T} :
    s.push x = none ↔ s.capacity = 0 := by
  unfold push
  by_cases hc : s.capacity = 0
  · simp [hc]
  · simp only [hc, if_false, iff_false]
    by_cases hfull : s.size = s.capacity <;> simp [hfull]

/-- A successful run of bare pushes adds the pushed count to `size`,
saturating at the capacity. -/
theorem RingBuffer.run_pushes {T : Type} (xs : List T) :
    ∀ {s s' : RingBuffer T} {out}, s.size ≤ s.capacity →
      RingBuffer.run s (xs.map Op.push) = some (out, s') →
      s'.size = min (s.size + xs.length) s.capacity ∧
      s'.capacity = s.capacity := by
  induction xs with
  | nil =>
      intro s s' out hle h
      simp only [List.map_nil, run, Option.some.injEq, Prod.mk.injEq] at h
      rw [← h.2]
      refine ⟨?_, rfl⟩
      simp only [List.length_nil, Nat.add_zero]
      omega
  | cons x xs ih =>
      intro s s' out hle h
      rw [List.map_cons, run] at h
      match hp : s.push x with
      | none => rw [hp] at h; cases h
      | some s₁ =>
          rw [hp, Option.some_bind] at h
          obtain ⟨hpos, hbuf, hcase⟩ := push_eq hp
          have hcap₁ : s₁.capacity = s.capacity := by
            rw [capacity, hbuf, List.length_set]
            rfl
          have hsz₁ : s₁.size = min (s.size + 1) s.capacity := by
            rcases hcase with ⟨hfull, -, hsz'⟩ | ⟨hfull, -, hsz'⟩ <;> omega
          obtain ⟨hsz', hcap'⟩ := ih (by omega) h
          rw [hcap₁] at hcap'
          refine ⟨?_, hcap'⟩
          rw [hsz', hsz₁, hcap₁, List.length_cons]
          omega

/-- A successful run of bare pops subtracts the popped count from `size`
(truncated at zero). -/
theorem RingBuffer.run_pops {T : Type} (q : Nat) :
    ∀ {s s' : RingBuffer T} {out},
      RingBuffer.run s (List.replicate q Op.pop) = some (out, s') →
      s'.size = s.size - q ∧ s'.capacity = s.capacity := by
  induction q with
  | zero =>
      intro s s' out h
      simp only [List.replicate_zero, run, Option.some.injEq,
        Prod.mk.injEq] at h
      rw [← h.2]
      exact ⟨by omega, rfl⟩
  | succ q ih =>
      intro s s' out h
      rw [List.replicate_succ, run] at h
      match hp : s.pop with
      | none => rw [hp] at h; cases h
      | some (v, s₁) =>
          rw [hp, Option.some_bind] at h
          match hr : RingBuffer.run s₁ (List.replicate q Op.pop) with
          | none => rw [hr] at h; cases h
          | some (vs, s₂) =>
              rw [hr] at h
              simp only [Option.map_some', Option.some.injEq,
                Prod.mk.injEq] at h
              obtain ⟨hsz₂, hcap₂⟩ := ih hr
              have hstep : (s₁.size = s.size - 1 ∧ s₁.capacity = s.capacity)
                  ∨ (s.size = 0 ∧ s₁ = s) := by
                rcases pop_eq hp with ⟨h0, -, hs⟩ | ⟨-, -, -, -, -, hsz', hbuf⟩
                · exact Or.inr ⟨h0, hs⟩
                · refine Or.inl ⟨hsz', ?_⟩
                  rw [capacity, hbuf, List.length_set]
                  rfl
              rw [← h.2]
              rcases hstep with ⟨ha, hb⟩ | ⟨ha, hb⟩
              · rw [hcap₂, hb]
                exact ⟨by omega, rfl⟩
              · subst hb
                rw [hcap₂]
                exact ⟨by omega, rfl⟩

/-- C3 amended: over ANY successfully executed interleaving the size stays
within `0 ≤ size ≤ capacity` (it moves by `min (size+1) cap` on push and
truncated `size − 1` on pop), and the claimed closed formula
`min(total pushes, capacity) − total pops`, clamped at zero, holds when
every push precedes every pop.  For general interleavings the formula is
false — see the counterexample theorem. -/
theorem c3_size_bound_and_push_then_pop_formula (T : Type) (cap : Nat)
    (hcap : 1 ≤ cap) :
    (∀ (ops : List (Op T)) (out : List (Option T)) (s : RingBuffer T),
        RingBuffer.run (RingBuffer.withCapacity cap) ops = some (out, s) →
        s.size ≤ cap) ∧
    (∀ (xs : List T) (q : Nat) (out : List (Option T)) (s : RingBuffer T),
        RingBuffer.run (RingBuffer.withCapacity cap)
            (xs.map Op.push ++ List.replicate q Op.pop) = some (out, s) →
        s.size = min xs.length cap - q) := by
  have hfreshcap : (RingBuffer.withCapacity (T := T) cap).capacity = cap := by
    simp [RingBuffer.capacity, RingBuffer.withCapacity]
  have hfreshsz : (RingBuffer.withCapacity (T := T) cap).size = 0 := rfl
  constructor
  · intro ops out s h
    obtain ⟨⟨hsz, -⟩, hc⟩ :=
      RingBuffer.run_inv ops (RingBuffer.inv_withCapacity T cap) h
    rw [hc, hfreshcap] at hsz
    exact hsz
  · intro xs q out s h
    rw [RingBuffer.run_append] at h
    match h₁ : RingBuffer.run (RingBuffer.withCapacity cap)
        (xs.map Op.push) with
    | none => rw [h₁] at h; cases h
    | some (out₁, s₁) =>
        rw [h₁, Option.some_bind] at h
        match h₂ : RingBuffer.run s₁ (List.replicate q Op.pop) with
        | none => rw [h₂] at h; cases h
        | some (out₂, s₂) =>
            rw [h₂] at h
            simp only [Option.map_some', Option.some.injEq,
              Prod.mk.injEq] at h
            obtain ⟨hsz₁, -⟩ :=
              RingBuffer.run_pushes xs (by rw [hfreshsz, hfreshcap]; omega) h₁
            obtain ⟨hsz₂, -⟩ := RingBuffer.run_pops q h₂
            rw [hfreshsz, hfreshcap] at hsz₁
            rw [← h.2]
            omega

/-- Witness for C3's amended theorem: capacity 2, pushes 5,6,7, then two
pops. -/
theorem c3_size_bound_witness :
    (1 ≤ 2) ∧
    ((⟨0, 1, [some 7, none]⟩ : RingBuffer Nat).size ≤ 2) ∧
    ((⟨1, 0, [none, none]⟩ : RingBuffer Nat).size = min 3 2 - 2) :=
  ⟨by decide,
    (c3_size_bound_and_push_then_pop_formula Nat 2 (by decide)).1
      [Op.push 5, Op.push 6, Op.push 7, Op.pop] [some 6]
      ⟨0, 1, [some 7, none]⟩ (by decide),
    (c3_size_bound_and_push_then_pop_formula Nat 2 (by decide)).2
      [5, 6, 7] 2 [some 6, some 7] ⟨1, 0, [none, none]⟩ (by decide)⟩

/-! Zero-sized-element mode of `RingBuffer`. -/

/-- The consuming iterators' `next` is literally the `pop` state
transition, for both components (the claim C7 builds on this; it fails
only in its collection consequence, at panicking states). -/
theorem iter_next_is_pop (T : Type) :
    RBIter.next (T := T) = RingBuffer.pop ∧
    RBUIter.next (T := T) = RingBufferU.pop :=
  ⟨rfl, rfl⟩

end Circus
